import Mathlib

/-!
Verification development for the crossword CSP solver
(`src/Optimization/crossword/generate.py`, class `CrosswordCreator`).

Words are modelled as lists of characters.  The `Crossword` structure is
modelled from the spec (section 3): the class `Crossword` of the repository
(grid parsing, slot extraction, the precomputed overlap relation and the
derived neighbor relation) is not part of the source under inspection, only
its consumer `generate.py` is.  The spec describes it as: a list of slots
(variables), a word list, and a symmetric overlap relation recording for two
crossing slots the index pair at the shared cell; two slots are neighbors iff
their overlap entry is not "no overlap".

Python dictionaries are modelled as association lists (insertion-ordered,
unique keys in all reachable states); Python sets of words as lists (the
word list gives the iteration order used for the examples; all confirmed
theorems are order-independent).  The mutable `self.domains` store is
threaded explicitly: every method that can write it takes and returns a
`Domains` value.  The recursions of `ac3` and `backtrack` are fuelled; the
`ac3` wrapper passes fuel that provably exceeds the loop's step count
(see the termination theorem for the stabilisation lemma), and `solve`
passes `variables.length + 1` fuel to `backtrack`, which bounds its
recursion depth because every recursive call strictly grows the set of
assigned slots.
-/

/-- A crossword slot, identified by start row, start column, direction and
length, mirroring the spec's Slot model (`Variable` in the repository). -/
structure Variable where
  row : Nat
  col : Nat
  down : Bool
  length : Nat
deriving DecidableEq, Repr

/-- A word: a list of characters (Python `str`). -/
abbrev Word := List Char

/-- Modelled from the spec: the immutable grid structure consumed by
`CrosswordCreator` — the slot set, the word list, and the overlap relation
(`none` when two slots do not cross). -/
structure Crossword where
  vars : List Variable
  words : List Word
  overlaps : Variable → Variable → Option (Nat × Nat)

/-- Modelled from the spec: well-formedness of a constructed `Crossword` —
slots are distinct, the word list is a set, slot lengths are positive
(spec: runs of length at least 2), a slot does not overlap itself, the
overlap relation is symmetric under index swap, and overlap indices are
within the slot lengths (they index the shared cell). -/
structure WF (cw : Crossword) : Prop where
  varsNodup : cw.vars.Nodup
  wordsNodup : cw.words.Nodup
  lens : ∀ v ∈ cw.vars, 0 < v.length
  irrefl : ∀ v, cw.overlaps v v = none
  symm : ∀ x y i j, cw.overlaps x y = some (i, j) → cw.overlaps y x = some (j, i)
  bounds : ∀ x y i j, x ∈ cw.vars → y ∈ cw.vars →
    cw.overlaps x y = some (i, j) → i < x.length ∧ j < y.length

/-- Modelled from the spec: two slots are neighbors iff their overlap entry
is not "no overlap" (`Crossword.neighbors` in the repository). -/
def neighbors (cw : Crossword) (x : Variable) : List Variable :=
  cw.vars.filter (fun v => !(v == x) && (cw.overlaps x v).isSome)

/-- An assignment: Python dict from `Variable` to word, as an ordered
association list. -/
abbrev Assignment := List (Variable × Word)

/-- Dict lookup (`assignment[var]` / `var in assignment`). -/
def alookup (a : Assignment) (v : Variable) : Option Word :=
  (a.find? (fun p => p.1 == v)).map (fun p => p.2)

/-- Dict write `assignment[var] = value`: update in place when the key is
present, append otherwise (Python dicts keep insertion order). -/
def ainsert (a : Assignment) (v : Variable) (w : Word) : Assignment :=
  if (a.find? (fun p => p.1 == v)).isSome then
    a.map (fun p => if p.1 == v then (v, w) else p)
  else a ++ [(v, w)]

/-- Dict removal `assignment.pop(var, None)`. -/
def aerase (a : Assignment) (v : Variable) : Assignment :=
  a.filter (fun p => !(p.1 == v))

/-- The domain store `self.domains`: Python dict from `Variable` to a word
set, as an association list. -/
abbrev Domains := List (Variable × List Word)

/-- Domain lookup `self.domains[x]`. -/
def domLookup (d : Domains) (v : Variable) : List Word :=
  match d.find? (fun p => p.1 == v) with
  | some p => p.2
  | none => []

/-- Constructor state: `self.domains = {var: words.copy() for var in variables}`. -/
def initDomains (cw : Crossword) : Domains :=
  cw.vars.map (fun v => (v, cw.words))

/-- Total number of stored candidate words, the measure that shrinks at
every domain revision. -/
def totalSize (d : Domains) : Nat :=
  (d.map (fun p => p.2.length)).sum

/-- The character comparison `x_word[i] == y_word[j]` performed inside
`revise` under `try`/`except`: an out-of-range index raises, and the
`except: continue` treats that `y_word` as not matching.  So a match
requires both indices in range and equal characters. -/
def matchAt (i j : Nat) (wx wy : Word) : Bool :=
  decide (i < wx.length) && decide (j < wy.length) && (wx.getD i 'a' == wy.getD j 'a')

/-- `CrosswordCreator.enforce_node_consistency`: for every stored slot keep
exactly the words whose length equals the slot's length. -/
def enforce_node_consistency (d : Domains) : Domains :=
  d.map (fun p => (p.1, p.2.filter (fun w => w.length == p.1.length)))

/-- `CrosswordCreator.revise x y`: if `(x, y)` has no registered overlap do
nothing; otherwise remove from `domain(x)` every word with no matching word
in `domain(y)` at the overlap indices.  Returns whether anything was
removed, together with the updated store. -/
def revise (cw : Crossword) (d : Domains) (x y : Variable) : Bool × Domains :=
  match cw.overlaps x y with
  | none => (false, d)
  | some (i, j) =>
    let dy := domLookup d y
    let keep := fun w => dy.any (fun yw => matchAt i j w yw)
    let dx := domLookup d x
    (dx.any (fun w => !keep w),
      d.map (fun p => if p.1 == x then (p.1, p.2.filter keep) else p))

/-- Fuel bound for the `ac3` worklist loop: every iteration strictly
decreases `totalSize d * (|variables| + 1) + |queue|`. -/
def ac3Bound (cw : Crossword) (d : Domains) (q : List (Variable × Variable)) : Nat :=
  totalSize d * (cw.vars.length + 1) + q.length

/-- The worklist loop of `CrosswordCreator.ac3`: pop the front arc, revise;
on a revision that empties `domain(x)` return failure immediately with the
rest of the worklist untouched; on a revision that leaves it non-empty
append `(z, x)` for every neighbor `z` of `x` other than `y`; success when
the worklist drains.  Fuel-exhaustion (never reached from the `ac3`
wrapper) reports failure. -/
def ac3Loop (cw : Crossword) : Nat → Domains → List (Variable × Variable) →
    Bool × Domains × List (Variable × Variable)
  | 0, d, q => (false, d, q)
  | _ + 1, d, [] => (true, d, [])
  | n + 1, d, (x, y) :: rest =>
    let r := revise cw d x y
    if r.1 then
      if (domLookup r.2 x).length = 0 then (false, r.2, rest)
      else ac3Loop cw n r.2
        (rest ++ ((neighbors cw x).filter (fun z => !(z == y))).map (fun z => (z, x)))
    else ac3Loop cw n r.2 rest

/-- The initial worklist when `ac3` is called without an `arcs` argument:
all ordered neighbor pairs. -/
def initialArcs (cw : Crossword) : List (Variable × Variable) :=
  (cw.vars.map (fun v => (neighbors cw v).map (fun nb => (v, nb)))).flatten

/-- `CrosswordCreator.ac3`: with `arcs = None` seed the worklist with every
ordered neighbor pair, otherwise use the caller's list itself.  Returns the
success flag, the final store, and the final state of the worklist (the
caller's list after the in-place pops and appends). -/
def ac3 (cw : Crossword) (d : Domains) (arcs : Option (List (Variable × Variable))) :
    Bool × Domains × List (Variable × Variable) :=
  match arcs with
  | none => ac3Loop cw (ac3Bound cw d (initialArcs cw) + 1) d (initialArcs cw)
  | some q => ac3Loop cw (ac3Bound cw d q + 1) d q

/-- `CrosswordCreator.assignment_complete`: every crossword variable is a
key of the assignment and its value is truthy (a non-empty word). -/
def assignment_complete (cw : Crossword) (a : Assignment) : Bool :=
  cw.vars.all (fun v =>
    match alookup a v with
    | some w => !w.isEmpty
    | none => false)

/-- `CrosswordCreator.consistent`: all assigned words distinct, every
assigned word's length equals its slot's length, and for every assigned
neighbor the characters at the registered overlap indices agree. -/
def consistent (cw : Crossword) (a : Assignment) : Bool :=
  decide ((a.map (fun p => p.2)).Nodup) &&
  a.all (fun p =>
    (p.2.length == p.1.length) &&
    (neighbors cw p.1).all (fun nb =>
      match cw.overlaps p.1 nb with
      | some (i, j) =>
        match alookup a nb with
        | some wn => p.2.getD i 'a' == wn.getD j 'a'
        | none => true
      | none => true))

/-- Stable ascending insertion by elimination count, after all elements
with a smaller-or-equal count: together with the left-to-right fold below
this computes exactly the stable ascending sort performed by Python's
`list.sort(key=lambda x: x[1])`. -/
def insertAsc (p : Word × Nat) : List (Word × Nat) → List (Word × Nat)
  | [] => [p]
  | q :: qs => if q.2 ≤ p.2 then q :: insertAsc p qs else p :: q :: qs

/-- `CrosswordCreator.order_domain_values`: pair each word of `domain(var)`
with the number of words it would eliminate from the domains of unassigned
neighbors (a candidate is eliminated when the overlap characters differ),
sort stably by ascending count, and return the words. -/
def order_domain_values (cw : Crossword) (d : Domains) (v : Variable)
    (a : Assignment) : List Word :=
  let elim := (domLookup d v).map (fun w =>
    (w, ((neighbors cw v).map (fun nb =>
      if (alookup a nb).isSome then 0
      else
        match cw.overlaps v nb with
        | some (i, j) =>
          (domLookup d nb).countP (fun nw => !(w.getD i 'a' == nw.getD j 'a'))
        | none => 0)).sum))
  (elim.foldl (fun acc p => insertAsc p acc) []).map (fun p => p.1)

/-- `CrosswordCreator.select_unassigned_variable`: among variables not in
the assignment, pick the one with the fewest remaining domain values,
breaking ties by strictly larger neighbor count, keeping the earlier
variable otherwise. -/
def select_unassigned_variable (cw : Crossword) (d : Domains) (a : Assignment) :
    Option Variable :=
  cw.vars.foldl (fun acc v =>
    if (alookup a v).isSome then acc
    else
      match acc with
      | none => some v
      | some mv =>
        if (domLookup d v).length < (domLookup d mv).length then some v
        else if (domLookup d v).length == (domLookup d mv).length &&
            (neighbors cw v).length > (neighbors cw mv).length then some v
        else acc) none

/-- One iteration of the candidate loop in `CrosswordCreator.backtrack`,
parameterised by the recursive call `rec`.  A `some` result short-circuits
(Python's early `return result`).  Otherwise the candidate is written into
the assignment, then checked; `assignment.pop(var, None)` runs only after a
consistency-passing candidate's recursive call fails — a candidate that
fails the consistency check is not removed (it is only overwritten by the
next candidate, if any). -/
def btStep (cw : Crossword)
    (rec : Domains → Assignment → Option Assignment × Assignment × Domains)
    (v : Variable) (acc : Option Assignment × Assignment × Domains) (w : Word) :
    Option Assignment × Assignment × Domains :=
  match acc with
  | (some r, a0, d0) => (some r, a0, d0)
  | (none, a0, d0) =>
    let a1 := ainsert a0 v w
    if consistent cw a1 then
      match rec d0 a1 with
      | (some r, a2, d2) => (some r, a2, d2)
      | (none, a2, d2) => (none, aerase a2 v, d2)
    else (none, a1, d0)

/-- `CrosswordCreator.backtrack`, with fuel bounding the recursion depth.
Returns the result, the final state of the (mutated, shared) assignment
dict, and the final state of the domain store. -/
def backtrack (cw : Crossword) : Nat → Domains → Assignment →
    Option Assignment × Assignment × Domains
  | 0, d, a => (none, a, d)
  | n + 1, d, a =>
    if assignment_complete cw a then (some a, a, d)
    else
      match select_unassigned_variable cw d a with
      | none => (none, a, d)
      | some v =>
        (order_domain_values cw d v a).foldl
          (btStep cw (fun d0 a1 => backtrack cw n d0 a1) v) (none, a, d)

/-- The domain store right after `solve`'s preprocessing phase
(`enforce_node_consistency` then `ac3()`, whose Boolean result `solve`
discards). -/
def solveDomains (cw : Crossword) : Domains :=
  (ac3 cw (enforce_node_consistency (initDomains cw)) none).2.1

/-- `CrosswordCreator.solve`: node consistency, arc consistency, then
backtracking search from the empty assignment. -/
def solve (cw : Crossword) : Option Assignment × Assignment × Domains :=
  backtrack cw (cw.vars.length + 1) (solveDomains cw) []

/-! ### Basic lemmas about the association-list dictionaries -/

theorem filter_length_lt {p : Word → Bool} {l : List Word} {a : Word}
    (ha : a ∈ l) (hpa : p a = false) : (l.filter p).length < l.length := by
  induction l with
  | nil => cases ha
  | cons b t ih =>
    rcases List.mem_cons.1 ha with rfl | hat
    · simp only [List.filter_cons, hpa]
      exact Nat.lt_succ_of_le (List.length_filter_le p t)
    · by_cases hb : p b = true
      · simpa [List.filter_cons, hb] using ih hat
      · rw [Bool.not_eq_true] at hb
        simp only [List.filter_cons, hb, List.length_cons]
        exact Nat.lt_succ_of_lt (ih hat)

theorem domLookup_cons (p : Variable × List Word) (t : Domains) (v : Variable) :
    domLookup (p :: t) v = if p.1 == v then p.2 else domLookup t v := by
  by_cases h : p.1 == v
  · simp [domLookup, List.find?_cons_of_pos, h]
  · simp only [Bool.not_eq_true] at h
    simp [domLookup, List.find?_cons_of_neg, h]

theorem domLookup_filterMap (d : Domains) (x z : Variable) (g : Word → Bool) :
    domLookup (d.map (fun p => if p.1 == x then (p.1, p.2.filter g) else p)) z
      = if z = x then (domLookup d x).filter g else domLookup d z := by
  induction d with
  | nil => by_cases h : z = x <;> simp [h, domLookup]
  | cons p t ih =>
    by_cases hpx : p.1 == x <;> by_cases hpz : p.1 == z <;>
      simp only [beq_iff_eq] at hpx hpz <;>
      by_cases hzx : z = x <;>
      simp_all [List.map_cons, domLookup_cons]

theorem revise_of_none (cw : Crossword) (d : Domains) (x y : Variable)
    (h : cw.overlaps x y = none) : revise cw d x y = (false, d) := by
  simp [revise, h]

theorem revise_fst (cw : Crossword) (d : Domains) (x y : Variable) (i j : Nat)
    (h : cw.overlaps x y = some (i, j)) :
    (revise cw d x y).1 = (domLookup d x).any
      (fun w => !(domLookup d y).any (fun yw => matchAt i j w yw)) := by
  simp [revise, h]

theorem revise_lookup (cw : Crossword) (d : Domains) (x y z : Variable) (i j : Nat)
    (h : cw.overlaps x y = some (i, j)) :
    domLookup (revise cw d x y).2 z =
      if z = x then
        (domLookup d x).filter (fun w => (domLookup d y).any (fun yw => matchAt i j w yw))
      else domLookup d z := by
  have hsnd : (revise cw d x y).2 = d.map (fun p => if p.1 == x then
      (p.1, p.2.filter (fun w => (domLookup d y).any (fun yw => matchAt i j w yw))) else p) := by
    simp [revise, h]
  rw [hsnd, domLookup_filterMap]

theorem totalSize_nil : totalSize [] = 0 := rfl

theorem totalSize_cons (p : Variable × List Word) (t : Domains) :
    totalSize (p :: t) = p.2.length + totalSize t := by
  simp [totalSize]

theorem totalSize_filterMap_le (d : Domains) (x : Variable) (g : Word → Bool) :
    totalSize (d.map (fun p => if p.1 == x then (p.1, p.2.filter g) else p)) ≤ totalSize d := by
  induction d with
  | nil => simp [totalSize]
  | cons p t ih =>
    by_cases hpx : p.1 == x <;>
      simp only [List.map_cons, hpx, if_pos, if_neg, totalSize_cons] <;>
      simp_all [totalSize_cons] <;>
      exact Nat.add_le_add (List.length_filter_le _ _) ih

theorem totalSize_filterMap_lt (d : Domains) (x : Variable) (g : Word → Bool)
    (h : ∃ w ∈ domLookup d x, g w = false) :
    totalSize (d.map (fun p => if p.1 == x then (p.1, p.2.filter g) else p)) < totalSize d := by
  induction d with
  | nil => simp [domLookup] at h
  | cons p t ih =>
    by_cases hpx : p.1 == x
    · rw [domLookup_cons, if_pos hpx] at h
      obtain ⟨w, hw, hgw⟩ := h
      simp only [List.map_cons, hpx, if_pos, totalSize_cons]
      exact Nat.add_lt_add_of_lt_of_le (filter_length_lt hw hgw) (totalSize_filterMap_le t x g)
    · rw [domLookup_cons, if_neg (by simpa using hpx)] at h
      simp only [List.map_cons, hpx, if_neg, totalSize_cons, Bool.false_eq_true]
      exact Nat.add_lt_add_left (ih h) _

theorem revise_totalSize_le (cw : Crossword) (d : Domains) (x y : Variable) :
    totalSize (revise cw d x y).2 ≤ totalSize d := by
  match hov : cw.overlaps x y with
  | none => simp [revise_of_none cw d x y hov]
  | some (i, j) =>
    simp only [revise, hov]
    exact totalSize_filterMap_le d x _

theorem revise_revised_exists (cw : Crossword) (d : Domains) (x y : Variable) (i j : Nat)
    (hov : cw.overlaps x y = some (i, j)) (h : (revise cw d x y).1 = true) :
    ∃ w ∈ domLookup d x, (domLookup d y).any (fun yw => matchAt i j w yw) = false := by
  rw [revise_fst cw d x y i j hov, List.any_eq_true] at h
  obtain ⟨w, hw, hneg⟩ := h
  exact ⟨w, hw, by simpa using hneg⟩

theorem revise_totalSize_lt (cw : Crossword) (d : Domains) (x y : Variable)
    (h : (revise cw d x y).1 = true) : totalSize (revise cw d x y).2 < totalSize d := by
  match hov : cw.overlaps x y with
  | none => rw [revise_of_none cw d x y hov] at h; cases h
  | some (i, j) =>
    have hex := revise_revised_exists cw d x y i j hov h
    simp only [revise, hov]
    exact totalSize_filterMap_lt d x _ hex

theorem revise_shrink (cw : Crossword) (d : Domains) (x y : Variable)
    (h : (revise cw d x y).1 = true) :
    (domLookup (revise cw d x y).2 x).length < (domLookup d x).length := by
  match hov : cw.overlaps x y with
  | none => rw [revise_of_none cw d x y hov] at h; cases h
  | some (i, j) =>
    obtain ⟨w, hw, hgw⟩ := revise_revised_exists cw d x y i j hov h
    rw [revise_lookup cw d x y x i j hov, if_pos rfl]
    exact filter_length_lt hw hgw

/-! ### Termination of the AC-3 worklist loop -/

theorem enq_length_le (cw : Crossword) (x y : Variable) :
    (((neighbors cw x).filter (fun z => !(z == y))).map (fun z => (z, x))).length
      ≤ cw.vars.length := by
  rw [List.length_map]
  exact le_trans (List.length_filter_le _ _) (List.length_filter_le _ _)

theorem ac3Bound_decrease_rev (cw : Crossword) (d : Domains) (x y : Variable)
    (rest : List (Variable × Variable)) (h : (revise cw d x y).1 = true) :
    ac3Bound cw (revise cw d x y).2
        (rest ++ ((neighbors cw x).filter (fun z => !(z == y))).map (fun z => (z, x)))
      < ac3Bound cw d ((x, y) :: rest) := by
  have hlt := revise_totalSize_lt cw d x y h
  have hE := enq_length_le cw x y
  have hmul := Nat.mul_le_mul_right (cw.vars.length + 1) (Nat.succ_le_of_lt hlt)
  rw [Nat.succ_mul] at hmul
  simp only [ac3Bound, List.length_append, List.length_cons]
  omega

theorem ac3Bound_decrease_norev (cw : Crossword) (d : Domains) (x y : Variable)
    (rest : List (Variable × Variable)) :
    ac3Bound cw (revise cw d x y).2 rest < ac3Bound cw d ((x, y) :: rest) := by
  have hle := revise_totalSize_le cw d x y
  have hmul := Nat.mul_le_mul_right (cw.vars.length + 1) hle
  simp only [ac3Bound, List.length_cons]
  omega

theorem ac3Loop_fuel_congr (cw : Crossword) :
    ∀ n m d q, ac3Bound cw d q < n → ac3Bound cw d q < m →
      ac3Loop cw n d q = ac3Loop cw m d q := by
  intro n
  induction n using Nat.strong_induction_on with
  | _ n ih =>
    intro m d q hn hm
    match n, m, q with
    | 0, _, _ => exact absurd hn (Nat.not_lt_zero _)
    | _ + 1, 0, _ => exact absurd hm (Nat.not_lt_zero _)
    | n + 1, m + 1, [] => rfl
    | n + 1, m + 1, (x, y) :: rest =>
      simp only [ac3Loop]
      by_cases hr : (revise cw d x y).1
      · simp only [hr, if_true]
        by_cases hz : (domLookup (revise cw d x y).2 x).length = 0
        · simp [hz]
        · simp only [hz, if_false]
          have hdec := ac3Bound_decrease_rev cw d x y rest hr
          exact ih n (Nat.lt_succ_self n) m _ _ (by omega) (by omega)
      · simp only [hr, if_false]
        have hdec := ac3Bound_decrease_norev cw d x y rest
        exact ih n (Nat.lt_succ_self n) m _ _ (by omega) (by omega)

theorem ac3Loop_true_drained (cw : Crossword) :
    ∀ n d q, (ac3Loop cw n d q).1 = true → (ac3Loop cw n d q).2.2 = [] := by
  intro n
  induction n with
  | zero => intro d q h; cases h
  | succ n ih =>
    intro d q h
    match q with
    | [] => rfl
    | (x, y) :: rest =>
      simp only [ac3Loop] at h ⊢
      by_cases hr : (revise cw d x y).1
      · simp only [hr, if_true] at h ⊢
        by_cases hz : (domLookup (revise cw d x y).2 x).length = 0
        · simp [hz] at h
        · simp only [hz, if_false] at h ⊢
          exact ih _ _ h
      · simp only [hr, if_false] at h ⊢
        exact ih _ _ h

/-! ### Arc-consistency soundness -/

/-- Arc `(x, y)` with overlap indices `(i, j)` is supported in store `d`:
every word of `domain(x)` has a matching word in `domain(y)`. -/
def Supported (d : Domains) (x y : Variable) (i j : Nat) : Prop :=
  ∀ wx ∈ domLookup d x, ∃ wy ∈ domLookup d y, matchAt i j wx wy = true

theorem matchAt_swap (i j : Nat) (wx wy : Word) (h : matchAt j i wy wx = true) :
    matchAt i j wx wy = true := by
  simp only [matchAt, Bool.and_eq_true, decide_eq_true_eq, beq_iff_eq] at h ⊢
  exact ⟨⟨h.1.2, h.1.1⟩, h.2.symm⟩

theorem mem_domLookup_revise (cw : Crossword) (d : Domains) (x y z : Variable) (w : Word)
    (h : w ∈ domLookup (revise cw d x y).2 z) : w ∈ domLookup d z := by
  match hov : cw.overlaps x y with
  | none => rw [revise_of_none cw d x y hov] at h; exact h
  | some (i, j) =>
    rw [revise_lookup cw d x y z i j hov] at h
    by_cases hz : z = x
    · subst hz; rw [if_pos rfl] at h; exact List.mem_of_mem_filter h
    · rw [if_neg hz] at h; exact h

theorem revise_lookup_not_revised (cw : Crossword) (d : Domains) (x y : Variable)
    (h : (revise cw d x y).1 = false) (z : Variable) :
    domLookup (revise cw d x y).2 z = domLookup d z := by
  match hov : cw.overlaps x y with
  | none => rw [revise_of_none cw d x y hov]
  | some (i, j) =>
    rw [revise_lookup cw d x y z i j hov]
    by_cases hz : z = x
    · rw [if_pos hz, hz]
      rw [revise_fst cw d x y i j hov] at h
      refine List.filter_eq_self.2 (fun w hw => ?_)
      simp only [List.any_eq_false] at h
      simpa using h w hw
    · rw [if_neg hz]

theorem supported_of_revise (cw : Crossword) (d : Domains) (x y : Variable) (i j : Nat)
    (hov : cw.overlaps x y = some (i, j)) (hne : y ≠ x) :
    Supported (revise cw d x y).2 x y i j := by
  intro wx hwx
  rw [revise_lookup cw d x y x i j hov, if_pos rfl] at hwx
  have hkeep := (List.mem_filter.1 hwx).2
  rw [List.any_eq_true] at hkeep
  obtain ⟨wy, hwy, hm⟩ := hkeep
  refine ⟨wy, ?_, hm⟩
  rw [revise_lookup cw d x y y i j hov, if_neg hne]
  exact hwy

theorem supported_of_not_revised (cw : Crossword) (d : Domains) (x y : Variable) (i j : Nat)
    (hov : cw.overlaps x y = some (i, j)) (hr : (revise cw d x y).1 = false) :
    Supported (revise cw d x y).2 x y i j := by
  intro wx hwx
  rw [revise_lookup_not_revised cw d x y hr x] at hwx
  have hany : (domLookup d y).any (fun yw => matchAt i j wx yw) = true := by
    have h2 := hr
    rw [revise_fst cw d x y i j hov] at h2
    simp only [List.any_eq_false] at h2
    simpa using h2 wx hwx
  rw [List.any_eq_true] at hany
  obtain ⟨wy, hwy, hm⟩ := hany
  refine ⟨wy, ?_, hm⟩
  rw [revise_lookup_not_revised cw d x y hr y]
  exact hwy

theorem supported_shrink (d d2 : Domains) (x y : Variable) (i j : Nat)
    (hsub : ∀ w, w ∈ domLookup d2 x → w ∈ domLookup d x)
    (heq : domLookup d2 y = domLookup d y)
    (h : Supported d x y i j) : Supported d2 x y i j := by
  intro wx hwx
  obtain ⟨wy, hwy, hm⟩ := h wx (hsub wx hwx)
  exact ⟨wy, by rw [heq]; exact hwy, hm⟩

theorem supported_classic (cw : Crossword) (d : Domains) (x y : Variable) (i j : Nat)
    (hov : cw.overlaps x y = some (i, j)) (hne : y ≠ x)
    (h : Supported d y x j i) : Supported (revise cw d x y).2 y x j i := by
  intro wy hwy
  rw [revise_lookup cw d x y y i j hov, if_neg hne] at hwy
  obtain ⟨wx, hwx, hm⟩ := h wy hwy
  refine ⟨wx, ?_, hm⟩
  rw [revise_lookup cw d x y x i j hov, if_pos rfl]
  rw [List.mem_filter]
  refine ⟨hwx, ?_⟩
  rw [List.any_eq_true]
  exact ⟨wy, hwy, matchAt_swap i j wx wy hm⟩

theorem mem_neighbors (cw : Crossword) (x z : Variable) :
    z ∈ neighbors cw x ↔ z ∈ cw.vars ∧ z ≠ x ∧ (cw.overlaps x z).isSome := by
  simp [neighbors, List.mem_filter, and_assoc]

theorem mem_initialArcs (cw : Crossword) (x y : Variable)
    (hx : x ∈ cw.vars) (hy : y ∈ neighbors cw x) : (x, y) ∈ initialArcs cw := by
  rw [initialArcs, List.mem_flatten]
  refine ⟨(neighbors cw x).map (fun nb => (x, nb)), ?_, ?_⟩
  · exact List.mem_map.2 ⟨x, hx, rfl⟩
  · exact List.mem_map.2 ⟨y, hy, rfl⟩

/-- The central AC-3 invariant: every neighbor arc is either pending in the
worklist or already supported in the current store. -/
def ArcsInv (cw : Crossword) (d : Domains) (q : List (Variable × Variable)) : Prop :=
  ∀ x y i j, x ∈ cw.vars → y ∈ cw.vars → cw.overlaps x y = some (i, j) →
    (x, y) ∈ q ∨ Supported d x y i j

theorem arcsInv_step_rev (cw : Crossword) (hwf : WF cw) (d : Domains)
    (x0 y0 : Variable) (rest : List (Variable × Variable))
    (hr : (revise cw d x0 y0).1 = true)
    (hinv : ArcsInv cw d ((x0, y0) :: rest)) :
    ArcsInv cw (revise cw d x0 y0).2
      (rest ++ ((neighbors cw x0).filter (fun z => !(z == y0))).map (fun z => (z, x0))) := by
  match hov0 : cw.overlaps x0 y0 with
  | none =>
    rw [revise_of_none cw d x0 y0 hov0] at hr
    cases hr
  | some (i0, j0) =>
    have hne0 : y0 ≠ x0 := by
      intro he
      rw [he, hwf.irrefl x0] at hov0
      cases hov0
    intro p q ip jp hp hq hovp
    by_cases hpq : (p, q) = (x0, y0)
    · have hp0 : p = x0 := congrArg Prod.fst hpq
      have hq0 : q = y0 := congrArg Prod.snd hpq
      subst hp0; subst hq0
      have hcp := hovp
      rw [hov0] at hcp
      simp only [Option.some.injEq, Prod.mk.injEq] at hcp
      obtain ⟨hip, hjp⟩ := hcp
      rw [← hip, ← hjp]
      exact Or.inr (supported_of_revise cw d p q i0 j0 hov0 hne0)
    · rcases hinv p q ip jp hp hq hovp with hmem | hsup
      · rcases List.mem_cons.1 hmem with he | hrest
        · exact absurd he hpq
        · exact Or.inl (List.mem_append_left _ hrest)
      · by_cases hqx0 : q = x0
        · by_cases hpy0 : p = y0
          · subst hqx0; subst hpy0
            have hsymm := hwf.symm q p i0 j0 hov0
            rw [hovp] at hsymm
            simp only [Option.some.injEq, Prod.mk.injEq] at hsymm
            obtain ⟨hip, hjp⟩ := hsymm
            rw [hip, hjp] at hsup ⊢
            exact Or.inr (supported_classic cw d q p i0 j0 hov0 hne0 hsup)
          · subst hqx0
            refine Or.inl (List.mem_append_right _ ?_)
            refine List.mem_map.2 ⟨p, ?_, rfl⟩
            rw [List.mem_filter]
            refine ⟨?_, ?_⟩
            · rw [mem_neighbors]
              refine ⟨hp, ?_, ?_⟩
              · intro he
                rw [he, hwf.irrefl q] at hovp
                cases hovp
              · rw [hwf.symm p q ip jp hovp]
                rfl
            · simp [hpy0]
        · refine Or.inr (supported_shrink d _ p q ip jp ?_ ?_ hsup)
          · intro w hw
            exact mem_domLookup_revise cw d x0 y0 p w hw
          · rw [revise_lookup cw d x0 y0 q i0 j0 hov0, if_neg hqx0]

theorem arcsInv_step_norev (cw : Crossword) (d : Domains)
    (x0 y0 : Variable) (rest : List (Variable × Variable))
    (hr : (revise cw d x0 y0).1 = false)
    (hinv : ArcsInv cw d ((x0, y0) :: rest)) :
    ArcsInv cw (revise cw d x0 y0).2 rest := by
  intro p q ip jp hp hq hovp
  by_cases hpq : (p, q) = (x0, y0)
  · have hp0 : p = x0 := congrArg Prod.fst hpq
    have hq0 : q = y0 := congrArg Prod.snd hpq
    subst hp0; subst hq0
    exact Or.inr (supported_of_not_revised cw d p q ip jp hovp hr)
  · rcases hinv p q ip jp hp hq hovp with hmem | hsup
    · rcases List.mem_cons.1 hmem with he | hrest
      · exact absurd he hpq
      · exact Or.inl hrest
    · refine Or.inr (supported_shrink d _ p q ip jp ?_ ?_ hsup)
      · intro w hw
        exact mem_domLookup_revise cw d x0 y0 p w hw
      · exact revise_lookup_not_revised cw d x0 y0 hr q

theorem ac3Loop_sound_aux (cw : Crossword) (hwf : WF cw) :
    ∀ n d q, ArcsInv cw d q → (ac3Loop cw n d q).1 = true →
      ∀ x y i j, x ∈ cw.vars → y ∈ cw.vars → cw.overlaps x y = some (i, j) →
        Supported (ac3Loop cw n d q).2.1 x y i j := by
  intro n
  induction n with
  | zero => intro d q _ h; cases h
  | succ n ih =>
    intro d q hinv h x y i j hx hy hov
    match q with
    | [] =>
      simp only [ac3Loop] at h ⊢
      rcases hinv x y i j hx hy hov with hq | hs
      · cases hq
      · exact hs
    | (x0, y0) :: rest =>
      simp only [ac3Loop] at h ⊢
      by_cases hr : (revise cw d x0 y0).1
      · simp only [hr, if_true] at h ⊢
        by_cases hz : (domLookup (revise cw d x0 y0).2 x0).length = 0
        · rw [if_pos hz] at h; cases h
        · rw [if_neg hz] at h ⊢
          exact ih _ _ (arcsInv_step_rev cw hwf d x0 y0 rest hr hinv) h x y i j hx hy hov
      · have hrf := hr
        rw [Bool.not_eq_true] at hrf
        simp only [hr, if_false] at h ⊢
        exact ih _ _ (arcsInv_step_norev cw d x0 y0 rest hrf hinv) h x y i j hx hy hov

theorem arcsInv_initial (cw : Crossword) (hwf : WF cw) (d : Domains) :
    ArcsInv cw d (initialArcs cw) := by
  intro x y i j hx hy hov
  refine Or.inl (mem_initialArcs cw x y hx ?_)
  rw [mem_neighbors]
  refine ⟨hy, ?_, by rw [hov]; rfl⟩
  intro he
  rw [he, hwf.irrefl x] at hov
  cases hov

/-! ### AC-3 never prunes a globally supported word -/

theorem alookup_mem (a : Assignment) (v : Variable) (w : Word)
    (h : alookup a v = some w) : (v, w) ∈ a := by
  unfold alookup at h
  match hf : a.find? (fun p => p.1 == v) with
  | none => rw [hf] at h; cases h
  | some pr =>
    rw [hf] at h
    simp only [Option.map_some', Option.some.injEq] at h
    have hmem := List.mem_of_find?_eq_some hf
    have hpred := List.find?_some hf
    simp only [beq_iff_eq] at hpred
    have hpr : pr = (v, w) := by
      rw [Prod.ext_iff]
      exact ⟨hpred, h⟩
    rw [← hpr]
    exact hmem

/-- The candidate words of a fixed solution are all present in the store. -/
def SolIn (cw : Crossword) (sol : Assignment) (d : Domains) : Prop :=
  ∀ v ∈ cw.vars, ∀ w, alookup sol v = some w → w ∈ domLookup d v

/-- Both components of every queued arc are crossword variables. -/
def QVars (cw : Crossword) (q : List (Variable × Variable)) : Prop :=
  ∀ p ∈ q, p.1 ∈ cw.vars ∧ p.2 ∈ cw.vars

theorem qvars_initial (cw : Crossword) : QVars cw (initialArcs cw) := by
  intro p hp
  rw [initialArcs, List.mem_flatten] at hp
  obtain ⟨l, hl, hpl⟩ := hp
  obtain ⟨v, hv, rfl⟩ := List.mem_map.1 hl
  obtain ⟨nb, hnb, rfl⟩ := List.mem_map.1 hpl
  exact ⟨hv, ((mem_neighbors cw v nb).1 hnb).1⟩

theorem qvars_enq (cw : Crossword) (x0 y0 : Variable) (hx0 : x0 ∈ cw.vars)
    (rest : List (Variable × Variable)) (hrest : QVars cw rest) :
    QVars cw (rest ++ ((neighbors cw x0).filter (fun z => !(z == y0))).map (fun z => (z, x0))) := by
  intro p hp
  rcases List.mem_append.1 hp with hl | hr
  · exact hrest p hl
  · obtain ⟨z, hz, rfl⟩ := List.mem_map.1 hr
    have hzn := List.mem_of_mem_filter hz
    exact ⟨((mem_neighbors cw x0 z).1 hzn).1, hx0⟩

theorem solIn_revise (cw : Crossword) (hwf : WF cw) (sol : Assignment)
    (hcomp : ∀ v ∈ cw.vars, ∃ w, alookup sol v = some w)
    (hlen : ∀ p ∈ sol, (p.2 : Word).length = (p.1 : Variable).length)
    (hagree : ∀ x y i j wx wy, x ∈ cw.vars → y ∈ cw.vars →
      cw.overlaps x y = some (i, j) → alookup sol x = some wx →
      alookup sol y = some wy → wx.getD i 'a' = wy.getD j 'a')
    (d : Domains) (x0 y0 : Variable) (hx0 : x0 ∈ cw.vars) (hy0 : y0 ∈ cw.vars)
    (hsol : SolIn cw sol d) : SolIn cw sol (revise cw d x0 y0).2 := by
  intro v hv w hw
  match hov : cw.overlaps x0 y0 with
  | none =>
    rw [revise_of_none cw d x0 y0 hov]
    exact hsol v hv w hw
  | some (i, j) =>
    rw [revise_lookup cw d x0 y0 v i j hov]
    by_cases hvx : v = x0
    · rw [if_pos hvx]
      rw [hvx] at hw
      rw [List.mem_filter]
      refine ⟨hsol x0 hx0 w hw, ?_⟩
      obtain ⟨wy, hwy⟩ := hcomp y0 hy0
      rw [List.any_eq_true]
      refine ⟨wy, hsol y0 hy0 wy hwy, ?_⟩
      have hb := hwf.bounds x0 y0 i j hx0 hy0 hov
      have hl1 : w.length = x0.length := hlen (x0, w) (alookup_mem sol x0 w hw)
      have hl2 : wy.length = y0.length := hlen (y0, wy) (alookup_mem sol y0 wy hwy)
      have hch := hagree x0 y0 i j w wy hx0 hy0 hov hw hwy
      simp only [matchAt, Bool.and_eq_true, decide_eq_true_eq, beq_iff_eq]
      exact ⟨⟨by omega, by omega⟩, hch⟩
    · rw [if_neg hvx]
      exact hsol v hv w hw

theorem ac3Loop_solIn (cw : Crossword) (hwf : WF cw) (sol : Assignment)
    (hcomp : ∀ v ∈ cw.vars, ∃ w, alookup sol v = some w)
    (hlen : ∀ p ∈ sol, (p.2 : Word).length = (p.1 : Variable).length)
    (hagree : ∀ x y i j wx wy, x ∈ cw.vars → y ∈ cw.vars →
      cw.overlaps x y = some (i, j) → alookup sol x = some wx →
      alookup sol y = some wy → wx.getD i 'a' = wy.getD j 'a') :
    ∀ n d q, QVars cw q → SolIn cw sol d →
      SolIn cw sol (ac3Loop cw n d q).2.1 := by
  intro n
  induction n with
  | zero =>
    intro d q _ hs
    simpa [ac3Loop] using hs
  | succ n ih =>
    intro d q hq hs
    match q with
    | [] => simpa [ac3Loop] using hs
    | (x0, y0) :: rest =>
      have hx0 := (hq (x0, y0) (List.mem_cons_self _ _)).1
      have hy0 := (hq (x0, y0) (List.mem_cons_self _ _)).2
      have hqrest : QVars cw rest := fun p hp => hq p (List.mem_cons_of_mem _ hp)
      have hs2 := solIn_revise cw hwf sol hcomp hlen hagree d x0 y0 hx0 hy0 hs
      simp only [ac3Loop]
      by_cases hr : (revise cw d x0 y0).1
      · simp only [hr, if_true]
        by_cases hz : (domLookup (revise cw d x0 y0).2 x0).length = 0
        · rw [if_pos hz]
          exact hs2
        · rw [if_neg hz]
          exact ih _ _ (qvars_enq cw x0 y0 hx0 rest hqrest) hs2
      · simp only [hr, if_false]
        exact ih _ _ hqrest hs2

/-! ### Soundness of the backtracking search -/

theorem consistent_nil (cw : Crossword) : consistent cw [] = true := by
  simp [consistent]

theorem consistent_nodup (cw : Crossword) (a : Assignment)
    (h : consistent cw a = true) : (a.map (fun p => p.2)).Nodup := by
  unfold consistent at h
  rw [Bool.and_eq_true] at h
  exact of_decide_eq_true h.1

theorem consistent_len (cw : Crossword) (a : Assignment)
    (h : consistent cw a = true) :
    ∀ p ∈ a, (p.2 : Word).length = (p.1 : Variable).length := by
  unfold consistent at h
  rw [Bool.and_eq_true] at h
  intro p hp
  have h2 := (List.all_eq_true.1 h.2) p hp
  rw [Bool.and_eq_true] at h2
  simpa using h2.1

theorem consistent_agree (cw : Crossword) (hwf : WF cw) (a : Assignment)
    (h : consistent cw a = true) :
    ∀ x y i j wx wy, x ∈ cw.vars → y ∈ cw.vars → cw.overlaps x y = some (i, j) →
      alookup a x = some wx → alookup a y = some wy →
      wx.getD i 'a' = wy.getD j 'a' := by
  intro x y i j wx wy hx hy hov hlx hly
  unfold consistent at h
  rw [Bool.and_eq_true] at h
  have hmemx : (x, wx) ∈ a := alookup_mem a x wx hlx
  have h2 := (List.all_eq_true.1 h.2) (x, wx) hmemx
  rw [Bool.and_eq_true] at h2
  have hynb : y ∈ neighbors cw x := by
    rw [mem_neighbors]
    refine ⟨hy, ?_, by rw [hov]; rfl⟩
    intro he
    rw [he, hwf.irrefl x] at hov
    cases hov
  have h3 := (List.all_eq_true.1 h2.2) y hynb
  simp only [hov, hly] at h3
  simpa using h3

theorem complete_lookup (cw : Crossword) (a : Assignment)
    (h : assignment_complete cw a = true) :
    ∀ v ∈ cw.vars, ∃ w, alookup a v = some w := by
  intro v hv
  unfold assignment_complete at h
  have h2 := (List.all_eq_true.1 h) v hv
  match hl : alookup a v with
  | some w => exact ⟨w, rfl⟩
  | none =>
    rw [hl] at h2
    cases h2

theorem btStep_sound (cw : Crossword) (n : Nat) (v : Variable)
    (hrec : ∀ d0 a1 r a2 d2, consistent cw a1 = true →
      backtrack cw n d0 a1 = (some r, a2, d2) →
      consistent cw r = true ∧ assignment_complete cw r = true) :
    ∀ (ws : List Word) (acc : Option Assignment × Assignment × Domains),
      (∀ r a0 d0, acc = (some r, a0, d0) →
        consistent cw r = true ∧ assignment_complete cw r = true) →
      ∀ r a2 d2,
        ws.foldl (btStep cw (fun d0 a1 => backtrack cw n d0 a1) v) acc = (some r, a2, d2) →
        consistent cw r = true ∧ assignment_complete cw r = true := by
  intro ws
  induction ws with
  | nil =>
    intro acc hacc r a2 d2 h
    rw [List.foldl_nil] at h
    exact hacc r a2 d2 h
  | cons w ws ih =>
    intro acc hacc r a2 d2 h
    rw [List.foldl_cons] at h
    refine ih _ ?_ r a2 d2 h
    intro r0 a0 d0 hstep
    obtain ⟨res, aa, dd⟩ := acc
    cases res with
    | some r1 =>
      simp only [btStep] at hstep
      have hr1 : r1 = r0 := by
        have := congrArg (fun t => t.1) hstep
        simpa using this
      exact hr1 ▸ hacc r1 aa dd rfl
    | none =>
      simp only [btStep] at hstep
      by_cases hc : consistent cw (ainsert aa v w) = true
      · rw [if_pos hc] at hstep
        match hbt : backtrack cw n dd (ainsert aa v w) with
        | (some r1, a2', d2') =>
          rw [hbt] at hstep
          have hr1 : r1 = r0 := by
            have := congrArg (fun t => t.1) hstep
            simpa using this
          exact hr1 ▸ hrec dd (ainsert aa v w) r1 a2' d2' hc hbt
        | (none, a2', d2') =>
          rw [hbt] at hstep
          have := congrArg (fun t => t.1) hstep
          simp at this
      · rw [if_neg hc] at hstep
        have := congrArg (fun t => t.1) hstep
        simp at this

theorem backtrack_sound (cw : Crossword) :
    ∀ n d a r a2 d2, consistent cw a = true →
      backtrack cw n d a = (some r, a2, d2) →
      consistent cw r = true ∧ assignment_complete cw r = true := by
  intro n
  induction n with
  | zero =>
    intro d a r a2 d2 _ h
    simp only [backtrack] at h
    have := congrArg (fun t => t.1) h
    simp at this
  | succ n ih =>
    intro d a r a2 d2 hca h
    simp only [backtrack] at h
    by_cases hcomp : assignment_complete cw a = true
    · rw [if_pos hcomp] at h
      have hra : a = r := by
        have := congrArg (fun t => t.1) h
        simpa using this
      exact hra ▸ ⟨hca, hcomp⟩
    · rw [if_neg hcomp] at h
      match hsel : select_unassigned_variable cw d a with
      | none =>
        rw [hsel] at h
        have := congrArg (fun t => t.1) h
        simp at this
      | some v =>
        rw [hsel] at h
        refine btStep_sound cw n v (fun d0 a1 r' a2' d2' hc hb => ih d0 a1 r' a2' d2' hc hb)
          (order_domain_values cw d v a) (none, a, d) ?_ r a2 d2 h
        intro r0 a0 d0 he
        have := congrArg (fun t => t.1) he
        simp at this

/-! ### The search never writes the domain store -/

theorem btStep_foldl_domains (cw : Crossword) (n : Nat) (v : Variable)
    (hrec : ∀ d0 a1, (backtrack cw n d0 a1).2.2 = d0) :
    ∀ (ws : List Word) (acc : Option Assignment × Assignment × Domains),
      (ws.foldl (btStep cw (fun d0 a1 => backtrack cw n d0 a1) v) acc).2.2 = acc.2.2 := by
  intro ws
  induction ws with
  | nil => intro acc; rfl
  | cons w ws ih =>
    intro acc
    rw [List.foldl_cons, ih]
    obtain ⟨res, aa, dd⟩ := acc
    cases res with
    | some r => rfl
    | none =>
      simp only [btStep]
      by_cases hc : consistent cw (ainsert aa v w) = true
      · rw [if_pos hc]
        match hbt : backtrack cw n dd (ainsert aa v w) with
        | (some r, a2, d2) =>
          have := hrec dd (ainsert aa v w)
          rw [hbt] at this
          exact this
        | (none, a2, d2) =>
          have := hrec dd (ainsert aa v w)
          rw [hbt] at this
          exact this
      · rw [if_neg hc]

theorem backtrack_domains (cw : Crossword) :
    ∀ n d a, (backtrack cw n d a).2.2 = d := by
  intro n
  induction n with
  | zero => intro d a; rfl
  | succ n ih =>
    intro d a
    simp only [backtrack]
    by_cases hcomp : assignment_complete cw a = true
    · rw [if_pos hcomp]
    · rw [if_neg hcomp]
      match hsel : select_unassigned_variable cw d a with
      | none => rfl
      | some v => exact btStep_foldl_domains cw n v (fun d0 a1 => ih d0 a1) _ _

/-! ### Node consistency computes exactly the length filter -/

theorem domLookup_enforce (d : Domains) (v : Variable) :
    domLookup (enforce_node_consistency d) v
      = (domLookup d v).filter (fun w => w.length == v.length) := by
  induction d with
  | nil => simp [enforce_node_consistency, domLookup]
  | cons p t ih =>
    by_cases hpv : p.1 == v
    · have hpv2 : p.1 = v := by simpa using hpv
      simp only [enforce_node_consistency, List.map_cons]
      rw [domLookup_cons, domLookup_cons]
      simp [hpv, hpv2]
    · simp only [enforce_node_consistency, List.map_cons]
      rw [domLookup_cons, domLookup_cons]
      simp only [hpv, Bool.false_eq_true, if_false]
      exact ih

/-! ### Concrete instances used by the witnesses and counterexamples -/

/-- A symmetric overlap relation between exactly two slots `u` and `v`,
registering indices `(iu, ju)` for `(u, v)` and the swap for `(v, u)`. -/
def twoVarOv (u v : Variable) (iu ju : Nat) : Variable → Variable → Option (Nat × Nat) :=
  fun a b =>
    if a = u ∧ b = v then some (iu, ju)
    else if a = v ∧ b = u then some (ju, iu)
    else none

theorem twoVarOv_irrefl (u v : Variable) (iu ju : Nat) (huv : u ≠ v) :
    ∀ x, twoVarOv u v iu ju x x = none := by
  intro x
  unfold twoVarOv
  by_cases h1 : x = u ∧ x = v
  · exact absurd (h1.1.symm.trans h1.2) huv
  · rw [if_neg h1]
    by_cases h2 : x = v ∧ x = u
    · exact absurd (h2.2.symm.trans h2.1) huv
    · rw [if_neg h2]

theorem twoVarOv_symm (u v : Variable) (iu ju : Nat) (huv : u ≠ v) :
    ∀ x y i j, twoVarOv u v iu ju x y = some (i, j) →
      twoVarOv u v iu ju y x = some (j, i) := by
  intro x y i j h
  unfold twoVarOv at h ⊢
  by_cases h1 : x = u ∧ y = v
  · rw [if_pos h1] at h
    simp only [Option.some.injEq, Prod.mk.injEq] at h
    obtain ⟨hi, hj⟩ := h
    have hnyu : ¬(y = u ∧ x = v) := fun hc => huv (hc.1.symm.trans h1.2)
    rw [if_neg hnyu, if_pos ⟨h1.2, h1.1⟩, ← hi, ← hj]
  · rw [if_neg h1] at h
    by_cases h2 : x = v ∧ y = u
    · rw [if_pos h2] at h
      simp only [Option.some.injEq, Prod.mk.injEq] at h
      obtain ⟨hi, hj⟩ := h
      rw [if_pos ⟨h2.2, h2.1⟩, ← hi, ← hj]
    · rw [if_neg h2] at h
      cases h

/-- An across slot of length 2 at the origin. -/
def vA : Variable := ⟨0, 0, false, 2⟩

/-- A down slot of length 2 at the origin. -/
def vB : Variable := ⟨0, 0, true, 2⟩

/-- A solvable two-slot crossword: the slots cross at their first letters,
words ab and ac. -/
def cwW : Crossword := ⟨[vA, vB], [['a', 'b'], ['a', 'c']], twoVarOv vA vB 0 0⟩

/-- The completeness counterexample: two slots crossing with overlap
indices (0, 1) — the first letter of the across slot must equal the second
letter of the down slot — and word list aa, ce, dc, bb. -/
def cwX : Crossword :=
  ⟨[vA, vB], [['a', 'a'], ['c', 'e'], ['d', 'c'], ['b', 'b']], twoVarOv vA vB 0 1⟩

/-- A single isolated slot of length 2 whose domain will hold only a
length-3 word. -/
def cwC : Crossword := ⟨[vA], [['a', 'b', 'c']], fun _ _ => none⟩

/-- Two crossing slots with incompatible singleton domains. -/
def cwD : Crossword := ⟨[vA, vB], [['a', 'b'], ['c', 'd']], twoVarOv vA vB 0 0⟩

/-- A domain store for `cwD` in which the arc `(vA, vB)` fails. -/
def dD : Domains := [(vA, [['a', 'b']]), (vB, [['c', 'd']])]

theorem twoVar_wf (ws : List Word) (iu ju : Nat) (hiu : iu < 2) (hju : ju < 2)
    (hw : ws.Nodup) : WF ⟨[vA, vB], ws, twoVarOv vA vB iu ju⟩ := by
  refine ⟨show ([vA, vB] : List Variable).Nodup by decide, hw,
    show ∀ v ∈ ([vA, vB] : List Variable), 0 < v.length by decide,
    twoVarOv_irrefl vA vB iu ju (by decide),
    twoVarOv_symm vA vB iu ju (by decide), ?_⟩
  intro x y i j hx hy hov
  have hov2 : twoVarOv vA vB iu ju x y = some (i, j) := hov
  unfold twoVarOv at hov2
  by_cases h1 : x = vA ∧ y = vB
  · rw [if_pos h1] at hov2
    simp only [Option.some.injEq, Prod.mk.injEq] at hov2
    obtain ⟨hi, hj⟩ := hov2
    rw [← hi, ← hj, h1.1, h1.2]
    exact ⟨hiu, hju⟩
  · rw [if_neg h1] at hov2
    by_cases h2 : x = vB ∧ y = vA
    · rw [if_pos h2] at hov2
      simp only [Option.some.injEq, Prod.mk.injEq] at hov2
      obtain ⟨hi, hj⟩ := hov2
      rw [← hi, ← hj, h2.1, h2.2]
      exact ⟨hju, hiu⟩
    · rw [if_neg h2] at hov2
      cases hov2

theorem cwW_wf : WF cwW := twoVar_wf _ 0 0 (by decide) (by decide) (by decide)

theorem cwX_wf : WF cwX := twoVar_wf _ 0 1 (by decide) (by decide) (by decide)

/-- The (unique) valid solution of `cwW` used by the witnesses. -/
def solW : Assignment := [(vA, ['a', 'b']), (vB, ['a', 'c'])]

theorem solW_lookup : ∀ v ∈ cwW.vars, ∃ w, alookup solW v = some w := by
  intro v hv
  simp only [cwW, List.mem_cons, List.not_mem_nil, or_false] at hv
  rcases hv with rfl | rfl
  · exact ⟨['a', 'b'], by decide⟩
  · exact ⟨['a', 'c'], by decide⟩

theorem solW_mem : ∀ v ∈ cwW.vars, ∀ w, alookup solW v = some w →
    w ∈ domLookup (initDomains cwW) v := by
  intro v hv w hw
  simp only [cwW, List.mem_cons, List.not_mem_nil, or_false] at hv
  rcases hv with rfl | rfl
  · have he : alookup solW vA = some ['a', 'b'] := by decide
    rw [he] at hw
    rw [← Option.some.inj hw]
    decide
  · have he : alookup solW vB = some ['a', 'c'] := by decide
    rw [he] at hw
    rw [← Option.some.inj hw]
    decide

theorem solW_agree : ∀ x y i j wx wy, x ∈ cwW.vars → y ∈ cwW.vars →
    cwW.overlaps x y = some (i, j) → alookup solW x = some wx →
    alookup solW y = some wy → wx.getD i 'a' = wy.getD j 'a' := by
  intro x y i j wx wy hx hy hov hlx hly
  simp only [cwW, List.mem_cons, List.not_mem_nil, or_false] at hx hy
  rcases hx with rfl | rfl <;> rcases hy with rfl | rfl
  · rw [show cwW.overlaps vA vA = none from by decide] at hov
    cases hov
  · rw [show cwW.overlaps vA vB = some (0, 0) from by decide] at hov
    simp only [Option.some.injEq, Prod.mk.injEq] at hov
    obtain ⟨hi, hj⟩ := hov
    rw [show alookup solW vA = some ['a', 'b'] from by decide] at hlx
    rw [show alookup solW vB = some ['a', 'c'] from by decide] at hly
    rw [← Option.some.inj hlx, ← Option.some.inj hly, ← hi, ← hj]
    decide
  · rw [show cwW.overlaps vB vA = some (0, 0) from by decide] at hov
    simp only [Option.some.injEq, Prod.mk.injEq] at hov
    obtain ⟨hi, hj⟩ := hov
    rw [show alookup solW vB = some ['a', 'c'] from by decide] at hlx
    rw [show alookup solW vA = some ['a', 'b'] from by decide] at hly
    rw [← Option.some.inj hlx, ← Option.some.inj hly, ← hi, ← hj]
    decide
  · rw [show cwW.overlaps vB vB = none from by decide] at hov
    cases hov

/-! ### Claim theorems -/

/-- C1: Search soundness — whenever `solve` (backtracking from the empty
assignment after node and arc consistency) returns a non-`None` result,
that result maps every slot to a word, the assigned words are pairwise
distinct, each assigned word's length equals its slot's length, and at
every registered overlap `(i, j)` of two neighboring slots the i-th
character of the first slot's word equals the j-th character of the second
slot's word; a partial or inconsistent assignment is never returned. -/
theorem solve_sound (cw : Crossword) (hwf : WF cw) (r : Assignment)
    (hs : (solve cw).1 = some r) :
    (∀ v ∈ cw.vars, ∃ w, alookup r v = some w) ∧
    (r.map (fun p => p.2)).Nodup ∧
    (∀ p ∈ r, (p.2 : Word).length = (p.1 : Variable).length) ∧
    (∀ x y i j wx wy, x ∈ cw.vars → y ∈ cw.vars → cw.overlaps x y = some (i, j) →
      alookup r x = some wx → alookup r y = some wy →
      wx.getD i 'a' = wy.getD j 'a') := by
  unfold solve at hs
  match hb : backtrack cw (cw.vars.length + 1) (solveDomains cw) [] with
  | (some r0, a2, d2) =>
    rw [hb] at hs
    have hr0 : r0 = r := Option.some.inj hs
    obtain ⟨hcons, hcomp⟩ := backtrack_sound cw (cw.vars.length + 1) (solveDomains cw) []
      r0 a2 d2 (consistent_nil cw) hb
    rw [← hr0]
    exact ⟨complete_lookup cw r0 hcomp, consistent_nodup cw r0 hcons,
      consistent_len cw r0 hcons, consistent_agree cw hwf r0 hcons⟩
  | (none, a2, d2) =>
    rw [hb] at hs
    exact Option.noConfusion hs

/-- Witness for C1: on the concrete crossword `cwW`, `solve` succeeds with
the assignment `solW` and `solve_sound` yields the solution facts. -/
theorem solve_sound_witness :
    (solve cwW).1 = some solW ∧ (∀ v ∈ cwW.vars, ∃ w, alookup solW v = some w) :=
  ⟨by decide, (solve_sound cwW cwW_wf solW (by decide)).1⟩

/-- C2 (code bug, evaluation at the failing input): `backtrack` on the
empty assignment, with a single slot of length 2 whose domain holds only
the length-3 word abc, returns failure — but the assignment dict has not
been restored to its state at the call: the trial entry whose consistency
check failed is still present, because `assignment.pop(var, None)` runs
only after a failed recursive call, never after a failed consistency
check. -/
theorem backtrack_leaks_failed_candidate :
    (backtrack cwC 2 [(vA, [['a', 'b', 'c']])] []).1 = none ∧
    (backtrack cwC 2 [(vA, [['a', 'b', 'c']])] []).2.1 = [(vA, ['a', 'b', 'c'])] := by
  decide

/-- C3 (code bug, evaluation at the failing input): on `cwX` node and arc
consistency succeed, the complete assignment vA↦ce, vB↦dc is drawn from
the post-AC-3 domains and satisfies every constraint, yet `solve` returns
`None`.  The branch vA↦aa exhausts vB's candidates, the last trial vB↦bb
(which failed the consistency check) leaks out of the failed branch, and
the stale entry then blocks the candidate ce for vA, so the search misses
the existing solution. -/
theorem solve_missed_solution :
    (ac3 cwX (enforce_node_consistency (initDomains cwX)) none).1 = true ∧
    (solve cwX).1 = none ∧
    ['c', 'e'] ∈ domLookup (solveDomains cwX) vA ∧
    ['d', 'c'] ∈ domLookup (solveDomains cwX) vB ∧
    assignment_complete cwX [(vA, ['c', 'e']), (vB, ['d', 'c'])] = true ∧
    consistent cwX [(vA, ['c', 'e']), (vB, ['d', 'c'])] = true := by
  decide

/-- C4: Arc-consistency soundness — whenever `ac3()` (no explicit arcs
argument) returns `True`, then for every ordered pair of neighboring slots
with registered overlap `(i, j)`, every word remaining in `domain(x)` has
at least one word in `domain(y)` matching it at the overlap indices. -/
theorem ac3_sound (cw : Crossword) (hwf : WF cw) (d : Domains)
    (h : (ac3 cw d none).1 = true) :
    ∀ x y i j, x ∈ cw.vars → y ∈ cw.vars → cw.overlaps x y = some (i, j) →
      ∀ wx ∈ domLookup (ac3 cw d none).2.1 x,
        ∃ wy ∈ domLookup (ac3 cw d none).2.1 y, matchAt i j wx wy = true := by
  intro x y i j hx hy hov
  exact ac3Loop_sound_aux cw hwf (ac3Bound cw d (initialArcs cw) + 1) d (initialArcs cw)
    (arcsInv_initial cw hwf d) h x y i j hx hy hov

/-- Witness for C4: on `cwW`, `ac3` succeeds and the word ab kept for slot
vA has a matching word in the domain of vB. -/
theorem ac3_sound_witness :
    (ac3 cwW (initDomains cwW) none).1 = true ∧
    (∃ wy ∈ domLookup (ac3 cwW (initDomains cwW) none).2.1 vB,
      matchAt 0 0 ['a', 'b'] wy = true) :=
  ⟨by decide,
   ac3_sound cwW cwW_wf (initDomains cwW) (by decide) vA vB 0 0 (by decide) (by decide)
     (show cwW.overlaps vA vB = some (0, 0) from by decide) ['a', 'b'] (by decide)⟩

/-- C5: Arc consistency never over-prunes — if a complete globally valid
solution (distinct words, length match, overlap agreement) is drawn from
the domains before AC-3 runs, then each of its words is still present in
its slot's domain after `ac3()` returns. -/
theorem ac3_no_overprune (cw : Crossword) (hwf : WF cw) (d : Domains) (sol : Assignment)
    (hcomp : ∀ v ∈ cw.vars, ∃ w, alookup sol v = some w)
    (hmem : ∀ v ∈ cw.vars, ∀ w, alookup sol v = some w → w ∈ domLookup d v)
    (hdistinct : (sol.map (fun p => p.2)).Nodup)
    (hlen : ∀ p ∈ sol, (p.2 : Word).length = (p.1 : Variable).length)
    (hagree : ∀ x y i j wx wy, x ∈ cw.vars → y ∈ cw.vars →
      cw.overlaps x y = some (i, j) → alookup sol x = some wx →
      alookup sol y = some wy → wx.getD i 'a' = wy.getD j 'a') :
    ∀ x ∈ cw.vars, ∀ w, alookup sol x = some w →
      w ∈ domLookup (ac3 cw d none).2.1 x := by
  intro x hx w hw
  exact ac3Loop_solIn cw hwf sol hcomp hlen hagree (ac3Bound cw d (initialArcs cw) + 1)
    d (initialArcs cw) (qvars_initial cw) hmem x hx w hw

/-- Witness for C5: the solution `solW` of `cwW` survives AC-3 — its word
for vA is still in vA's domain afterwards. -/
theorem ac3_no_overprune_witness :
    ['a', 'b'] ∈ domLookup (ac3 cwW (initDomains cwW) none).2.1 vA :=
  ac3_no_overprune cwW cwW_wf (initDomains cwW) solW solW_lookup solW_mem (by decide)
    (by decide) solW_agree vA (by decide) ['a', 'b'] (by decide)

/-- C6: AC-3 signalling — the worklist loop returns success exactly by
draining the worklist; a revision that empties `domain(x)` makes it return
`False` at once, leaving the remaining arcs unprocessed; a revision that
shrinks `domain(x)` without emptying it re-enqueues `(z, x)` for every
neighbor `z` of `x` other than `y`; and a `True` result always comes with
a fully drained worklist. -/
theorem ac3_signalling (cw : Crossword) :
    (∀ n d, ac3Loop cw (n + 1) d [] = (true, d, [])) ∧
    (∀ n d x y rest, (revise cw d x y).1 = true →
      domLookup (revise cw d x y).2 x = [] →
      ac3Loop cw (n + 1) d ((x, y) :: rest) = (false, (revise cw d x y).2, rest)) ∧
    (∀ n d x y rest, (revise cw d x y).1 = true →
      domLookup (revise cw d x y).2 x ≠ [] →
      ac3Loop cw (n + 1) d ((x, y) :: rest) =
        ac3Loop cw n (revise cw d x y).2
          (rest ++ ((neighbors cw x).filter (fun z => !(z == y))).map (fun z => (z, x)))) ∧
    (∀ n d q, (ac3Loop cw n d q).1 = true → (ac3Loop cw n d q).2.2 = []) := by
  refine ⟨fun n d => rfl, ?_, ?_, ac3Loop_true_drained cw⟩
  · intro n d x y rest hr hz
    simp only [ac3Loop, hr, if_true]
    rw [if_pos (by rw [hz]; rfl)]
  · intro n d x y rest hr hz
    simp only [ac3Loop, hr, if_true]
    rw [if_neg (fun hc => hz (List.length_eq_zero.1 hc))]

/-- Witness for C6: a concrete emptying revision returns failure with the
rest of the worklist untouched, and a concrete non-emptying revision
continues with the re-enqueued arcs. -/
theorem ac3_signalling_witness :
    ac3Loop cwD 1 dD [(vA, vB)] = (false, (revise cwD dD vA vB).2, []) ∧
    ac3Loop cwX 2 (enforce_node_consistency (initDomains cwX)) [(vA, vB)] =
      ac3Loop cwX 1 (revise cwX (enforce_node_consistency (initDomains cwX)) vA vB).2
        ([] ++ ((neighbors cwX vA).filter (fun z => !(z == vB))).map (fun z => (z, vA))) :=
  ⟨(ac3_signalling cwD).2.1 0 dD vA vB [] (by decide) (by decide),
   (ac3_signalling cwX).2.2.1 1 (enforce_node_consistency (initDomains cwX)) vA vB []
     (by decide) (by decide)⟩

/-- C7: Node-consistency exactness — after `enforce_node_consistency`, a
word is in a slot's domain iff it was there before and its length equals
the slot's length: every remaining word has the slot's length and no word
of the correct length is removed. -/
theorem node_consistency_exact (d : Domains) (v : Variable) (w : Word) :
    w ∈ domLookup (enforce_node_consistency d) v ↔
      w ∈ domLookup d v ∧ w.length = v.length := by
  rw [domLookup_enforce, List.mem_filter]
  simp

/-- C8: The domain store is unchanged by the search — `backtrack` returns
the store exactly as given for every fuel, assignment and store (the
least-constraining-value pass only counts conflicts, it never removes a
word), so after `solve`'s search the store still equals its state right
after the node-consistency/arc-consistency preprocessing. -/
theorem search_preserves_domains (cw : Crossword) :
    (∀ n d a, (backtrack cw n d a).2.2 = d) ∧ (solve cw).2.2 = solveDomains cw :=
  ⟨backtrack_domains cw, backtrack_domains cw (cw.vars.length + 1) (solveDomains cw) []⟩

/-- C9: AC-3 termination — every `revise` call that reports a change
strictly shrinks the domain of `x`, and consequently the worklist loop
stabilises: any two fuels exceeding the bound
`totalSize d * (|variables| + 1) + |queue|` produce the same result, so
the loop terminates after at most that many iterations. -/
theorem ac3_terminates (cw : Crossword) :
    (∀ d x y, (revise cw d x y).1 = true →
      (domLookup (revise cw d x y).2 x).length < (domLookup d x).length) ∧
    (∀ n m d q, ac3Bound cw d q < n → ac3Bound cw d q < m →
      ac3Loop cw n d q = ac3Loop cw m d q) :=
  ⟨fun d x y h => revise_shrink cw d x y h, ac3Loop_fuel_congr cw⟩

/-- Witness for C9: a concrete changed revision strictly shrinks the
domain, and the loop result is fuel-independent above the bound. -/
theorem ac3_terminates_witness :
    ((revise cwD dD vA vB).1 = true ∧
      (domLookup (revise cwD dD vA vB).2 vA).length < (domLookup dD vA).length) ∧
    ac3Loop cwD 8 dD [(vA, vB)] = ac3Loop cwD 9 dD [(vA, vB)] :=
  ⟨⟨by decide, (ac3_terminates cwD).1 dD vA vB (by decide)⟩,
   (ac3_terminates cwD).2 8 9 dD [(vA, vB)] (by decide) (by decide)⟩

/-- C10 counterexample: calling `ac3` with the single explicit arc
`(vA, vB)` on incompatible singleton domains fails, and the caller's list
has been fully drained — no pending arcs remain on this failure,
contradicting the claim that failure leaves pending arcs in the list. -/
theorem ac3_arcs_failure_drains_queue :
    (ac3 cwD dD (some [(vA, vB)])).1 = false ∧
    (ac3 cwD dD (some [(vA, vB)])).2.2 = [] := by
  decide

/-- C10 (amended): with an explicit `arcs` argument, `ac3` adopts the
caller's list itself as its worklist (no copy is made; arcs are popped
from the front and new arcs `(z, x)` appended), so after the call the list
is mutated and in general not preserved: on success it has been fully
drained to empty, and on failure it holds exactly the arcs still pending
at the failing revision — possibly none. -/
theorem ac3_arcs_adopted (cw : Crossword) :
    (∀ d q, ac3 cw d (some q) = ac3Loop cw (ac3Bound cw d q + 1) d q) ∧
    (∀ d q, (ac3 cw d (some q)).1 = true → (ac3 cw d (some q)).2.2 = []) :=
  ⟨fun d q => rfl, fun d q h => ac3Loop_true_drained cw (ac3Bound cw d q + 1) d q h⟩

/-- Witness for C10: a concrete successful run over an explicit arcs list
drains it to empty. -/
theorem ac3_arcs_adopted_witness :
    (ac3 cwW (initDomains cwW) (some [(vA, vB)])).1 = true ∧
    (ac3 cwW (initDomains cwW) (some [(vA, vB)])).2.2 = [] :=
  ⟨by decide, (ac3_arcs_adopted cwW).2 (initDomains cwW) [(vA, vB)] (by decide)⟩
